import Mathlib

/-!
Verification of the known-values registry crate.

The development shallowly embeds the Rust sources:
  src/known_value_store.rs   (KnownValuesStore and its two indices)
  src/directory_loader.rs    (directory loading, DirectoryConfig, global
                              configuration state)
  src/known_values_registry.rs (the built-in table and LazyKnownValues)

Rust HashMaps are embedded as association lists with HashMap semantics
(point lookup, replacing insert, key erase); u64 codepoints are embedded
as Nat (the code performs no arithmetic on them, so no wraparound can
occur); filesystem interaction is embedded as an explicit finite model of
directory states and per-file read/parse outcomes, with JSON parsing
abstracted to its outcome at the interface, as the crate treats it; the
process-global mutable cells (CUSTOM_CONFIG, CONFIG_LOCKED, the Once and
the store cell of LazyKnownValues) are embedded as an explicit state
record threaded through the operations.
-/

/-- HashMap-style point lookup on an association list. -/
def lookupA {α β : Type} [DecidableEq α] (k : α) : List (α × β) → Option β
  | [] => none
  | (k2, v) :: rest => if k2 = k then some v else lookupA k rest

/-- HashMap-style insert on an association list: replaces the binding for
the key if present, otherwise appends it. -/
def insertA {α β : Type} [DecidableEq α] (k : α) (v : β) : List (α × β) → List (α × β)
  | [] => [(k, v)]
  | (k2, v2) :: rest =>
    if k2 = k then (k, v) :: rest else (k2, v2) :: insertA k v rest

/-- HashMap-style removal of a key from an association list. -/
def eraseA {α β : Type} [DecidableEq α] (k : α) : List (α × β) → List (α × β)
  | [] => []
  | (k2, v2) :: rest => if k2 = k then rest else (k2, v2) :: eraseA k rest

/-- The identifier value object of the crate, from src/known_value.rs.
Modelled from the spec: known_value.rs is not among the provided sources;
the spec and the crate doc examples fix it as a codepoint (u64) paired
with an optional assigned name, where name() returns the assigned name if
present and otherwise the decimal string of the codepoint. -/
structure KnownValue where
  value : Nat
  assigned_name : Option String
deriving DecidableEq, Repr

/-- KnownValue::new — an identifier with no assigned name. -/
def KnownValue.new (value : Nat) : KnownValue := ⟨value, none⟩

/-- KnownValue::new_with_name — an identifier with an assigned name. -/
def KnownValue.new_with_name (value : Nat) (name : String) : KnownValue :=
  ⟨value, some name⟩

/-- KnownValue::name — the assigned name if present, else the decimal
string of the codepoint. -/
def KnownValue.name (kv : KnownValue) : String :=
  match kv.assigned_name with
  | some n => n
  | none => Nat.repr kv.value

/-- The bidirectional store of src/known_value_store.rs: a codepoint
index and a name index, both embedded as HashMap-semantics association
lists. -/
structure KnownValuesStore where
  known_values_by_raw_value : List (Nat × KnownValue)
  known_values_by_assigned_name : List (String × KnownValue)
deriving DecidableEq, Repr

/-- First step of KnownValuesStore::_insert: if the codepoint already has
an identifier in the codepoint index and that identifier has an assigned
name, remove that stale name from the name index. -/
def stripOldName (known_value : KnownValue)
    (by_raw : List (Nat × KnownValue))
    (by_name : List (String × KnownValue)) : List (String × KnownValue) :=
  match lookupA known_value.value by_raw with
  | some old_value =>
    match old_value.assigned_name with
    | some old_name => eraseA old_name by_name
    | none => by_name
  | none => by_name

/-- Last step of KnownValuesStore::_insert: if the new identifier has an
assigned name, index it in the name index. -/
def addNewName (known_value : KnownValue)
    (by_name : List (String × KnownValue)) : List (String × KnownValue) :=
  match known_value.assigned_name with
  | some name => insertA name known_value by_name
  | none => by_name

/-- KnownValuesStore::_insert acting on the two indices, mirroring the
source: strip the stale name of the codepoint from the name index, update
the codepoint index, then index the new name if present. -/
def KnownValuesStore.insertMaps (known_value : KnownValue)
    (by_raw : List (Nat × KnownValue))
    (by_name : List (String × KnownValue)) :
    List (Nat × KnownValue) × List (String × KnownValue) :=
  (insertA known_value.value known_value by_raw,
    addNewName known_value (stripOldName known_value by_raw by_name))

/-- KnownValuesStore::new — fold _insert over the provided collection in
iteration order, starting from empty indices. -/
def KnownValuesStore.new (known_values : List KnownValue) : KnownValuesStore :=
  let maps := known_values.foldl
    (fun maps kv => KnownValuesStore.insertMaps kv maps.1 maps.2)
    (([], []) : List (Nat × KnownValue) × List (String × KnownValue))
  ⟨maps.1, maps.2⟩

/-- KnownValuesStore::insert. -/
def KnownValuesStore.insert (s : KnownValuesStore) (known_value : KnownValue) :
    KnownValuesStore :=
  let maps := KnownValuesStore.insertMaps known_value
    s.known_values_by_raw_value s.known_values_by_assigned_name
  ⟨maps.1, maps.2⟩

/-- KnownValuesStore::known_value_named — exact lookup in the name index. -/
def KnownValuesStore.known_value_named (s : KnownValuesStore)
    (assigned_name : String) : Option KnownValue :=
  lookupA assigned_name s.known_values_by_assigned_name

/-- KnownValuesStore::assigned_name. -/
def KnownValuesStore.assigned_name (s : KnownValuesStore) (kv : KnownValue) :
    Option String :=
  (lookupA kv.value s.known_values_by_raw_value).bind
    (fun found => found.assigned_name)

/-- KnownValuesStore::name. -/
def KnownValuesStore.name (s : KnownValuesStore) (kv : KnownValue) : String :=
  match s.assigned_name kv with
  | some n => n
  | none => kv.name

/-- KnownValuesStore::known_value_for_raw_value — the stored identifier
for the codepoint if the (optional) store has one, else a fresh nameless
identifier. -/
def KnownValuesStore.known_value_for_raw_value (raw_value : Nat)
    (known_values : Option KnownValuesStore) : KnownValue :=
  match known_values.bind
      (fun s => lookupA raw_value s.known_values_by_raw_value) with
  | some kv => kv
  | none => KnownValue.new raw_value

/-- Both indices of a store have HashMap-consistent (duplicate-free)
key lists. Every store the Rust code can build satisfies this, because
its indices are HashMaps. -/
def KnownValuesStore.WF (s : KnownValuesStore) : Prop :=
  (s.known_values_by_raw_value.map Prod.fst).Nodup ∧
  (s.known_values_by_assigned_name.map Prod.fst).Nodup

/-- The store invariant exactly as the spec claims it (claim C3): every
named entry of the codepoint index is reflected in the name index with
the same codepoint, and every name index entry names some current
codepoint index identifier. -/
def StoreNameInvariant (s : KnownValuesStore) : Prop :=
  (∀ c kv n, lookupA c s.known_values_by_raw_value = some kv →
    kv.assigned_name = some n →
    ∃ kv2, lookupA n s.known_values_by_assigned_name = some kv2 ∧
      kv2.value = c) ∧
  (∀ n kv, lookupA n s.known_values_by_assigned_name = some kv →
    ∃ c kv2, lookupA c s.known_values_by_raw_value = some kv2 ∧
      kv2.assigned_name = some n)

/-- No dangling name entries: every binding n ↦ kv of the name index is
for an identifier whose assigned name is n and which is the current
occupant of its codepoint in the codepoint index. -/
def KnownValuesStore.NoDanglingNames (s : KnownValuesStore) : Prop :=
  ∀ n kv, lookupA n s.known_values_by_assigned_name = some kv →
    kv.assigned_name = some n ∧
    lookupA kv.value s.known_values_by_raw_value = some kv

/-- Stores reachable by the Rust API: built by KnownValuesStore::new from
some initial collection and extended by any sequence of insert calls. -/
inductive ReachableStore : KnownValuesStore → Prop
  | base (known_values : List KnownValue) :
      ReachableStore (KnownValuesStore.new known_values)
  | step {s : KnownValuesStore} (known_value : KnownValue) :
      ReachableStore s → ReachableStore (s.insert known_value)

/-- Errors of src/directory_loader.rs (io::Error payloads abstracted;
the Json variant keeps the offending file as the source does). -/
inductive LoadError where
  | io
  | json (file : String)
deriving DecidableEq, Repr

/-- RegistryEntry of src/directory_loader.rs. -/
structure RegistryEntry where
  codepoint : Nat
  canonical_name : String
  entry_type : Option String
  uri : Option String
  description : Option String
deriving DecidableEq, Repr

/-- OntologyInfo of src/directory_loader.rs (ignored by loading logic). -/
structure OntologyInfo where
  name : Option String
  source_url : Option String
  start_code_point : Option Nat
  processing_strategy : Option String
deriving DecidableEq, Repr

/-- GeneratedInfo of src/directory_loader.rs (ignored by loading logic). -/
structure GeneratedInfo where
  tool : Option String
deriving DecidableEq, Repr

/-- RegistryFile of src/directory_loader.rs; the statistics field is a
raw JSON value the loader ignores, embedded as presence only. -/
structure RegistryFile where
  ontology : Option OntologyInfo
  generated : Option GeneratedInfo
  entries : List RegistryEntry
  statistics : Option Unit
deriving DecidableEq, Repr

/-- Outcome of reading and JSON-parsing one file, at the interface the
loader sees: the read can fail, the parse can fail, or a RegistryFile is
produced. -/
inductive FileContent where
  | readErr
  | parseErr
  | parsed (registry : RegistryFile)
deriving DecidableEq, Repr

/-- One directory entry as the loader observes it: its path, whether its
extension is "json", and its read/parse outcome. -/
structure FsFile where
  path : String
  is_json : Bool
  content : FileContent
deriving DecidableEq, Repr

/-- State of one directory path: absent or not a directory, enumerable
with the given entries in read_dir order, or failing enumeration. -/
inductive DirState where
  | missing
  | listErr
  | files (entries : List FsFile)
deriving DecidableEq, Repr

/-- The filesystem, embedded as the directory state of every path. -/
def FileSystem : Type := String → DirState

/-- The KnownValue built from one registry entry:
KnownValue::new_with_name(entry.codepoint, entry.canonical_name). -/
def toKnownValue (entry : RegistryEntry) : KnownValue :=
  KnownValue.new_with_name entry.codepoint entry.canonical_name

/-- The file loop of load_from_directory (strict): a json file whose read
or parse fails aborts the whole load with that error; entries of parsed
files accumulate in order. -/
def directory_loader.load_files_strict : List FsFile → Except LoadError (List KnownValue)
  | [] => .ok []
  | f :: rest =>
    if f.is_json then
      match f.content with
      | .readErr => .error .io
      | .parseErr => .error (.json f.path)
      | .parsed registry =>
        match directory_loader.load_files_strict rest with
        | .ok values => .ok (registry.entries.map toKnownValue ++ values)
        | .error e => .error e
    else directory_loader.load_files_strict rest

/-- load_from_directory of src/directory_loader.rs: empty result when the
path is missing or not a directory, io error when enumeration fails,
otherwise the strict file loop. -/
def directory_loader.load_from_directory (fs : FileSystem) (path : String) :
    Except LoadError (List KnownValue) :=
  match fs path with
  | .missing => .ok []
  | .listErr => .error .io
  | .files l => directory_loader.load_files_strict l

/-- load_single_file of src/directory_loader.rs. -/
def directory_loader.load_single_file (f : FsFile) : Except LoadError (List KnownValue) :=
  match f.content with
  | .readErr => .error .io
  | .parseErr => .error (.json f.path)
  | .parsed registry => .ok (registry.entries.map toKnownValue)

/-- The file loop of load_from_directory_tolerant: per-file failures are
collected beside the values of the files that load. -/
def directory_loader.load_files_tolerant :
    List FsFile → List KnownValue × List (String × LoadError)
  | [] => ([], [])
  | f :: rest =>
    let r := directory_loader.load_files_tolerant rest
    if f.is_json then
      match directory_loader.load_single_file f with
      | .ok file_values => (file_values ++ r.1, r.2)
      | .error e => (r.1, (f.path, e) :: r.2)
    else r

/-- load_from_directory_tolerant of src/directory_loader.rs. -/
def directory_loader.load_from_directory_tolerant (fs : FileSystem) (path : String) :
    Except LoadError (List KnownValue × List (String × LoadError)) :=
  match fs path with
  | .missing => .ok ([], [])
  | .listErr => .error .io
  | .files l => .ok (directory_loader.load_files_tolerant l)

/-- DirectoryConfig of src/directory_loader.rs: the ordered search
paths. -/
structure DirectoryConfig where
  paths : List String
deriving DecidableEq, Repr

/-- DirectoryConfig::default_directory: the .known-values directory under
the home directory, or under "." when no home directory resolves. The
home directory is an explicit parameter of the model. -/
def DirectoryConfig.default_directory (home_dir : Option String) : String :=
  (match home_dir with
   | some h => h
   | none => ".") ++ "/.known-values"

/-- DirectoryConfig::default_only. -/
def DirectoryConfig.default_only (home_dir : Option String) : DirectoryConfig :=
  ⟨[DirectoryConfig.default_directory home_dir]⟩

/-- DirectoryConfig::with_paths. -/
def DirectoryConfig.with_paths (paths : List String) : DirectoryConfig :=
  ⟨paths⟩

/-- DirectoryConfig::add_path — appended paths are processed later, so
they override earlier ones. -/
def DirectoryConfig.add_path (c : DirectoryConfig) (path : String) :
    DirectoryConfig :=
  ⟨c.paths ++ [path]⟩

/-- LoadResult of src/directory_loader.rs; the values HashMap keyed by
codepoint is embedded as an association list. -/
structure LoadResult where
  values : List (Nat × KnownValue)
  files_processed : List String
  errors : List (String × LoadError)
deriving DecidableEq, Repr

/-- The merge loop of load_from_config: each loaded value is inserted
into the accumulating codepoint-keyed map, later insertions replacing
earlier ones. -/
def directory_loader.mergeValues (values : List KnownValue) (m : List (Nat × KnownValue)) :
    List (Nat × KnownValue) :=
  values.foldl (fun m v => insertA v.value v m) m

/-- One location step of load_from_config. -/
def directory_loader.load_from_config_step (fs : FileSystem) (result : LoadResult)
    (dir_path : String) : LoadResult :=
  match directory_loader.load_from_directory_tolerant fs dir_path with
  | .ok (values, errors) =>
    { values := directory_loader.mergeValues values result.values
      files_processed := result.files_processed ++ [dir_path]
      errors := result.errors ++ errors }
  | .error e =>
    { values := result.values
      files_processed := result.files_processed
      errors := result.errors ++ [(dir_path, e)] }

/-- load_from_config of src/directory_loader.rs: fold the location step
over the configured paths in order. -/
def directory_loader.load_from_config (fs : FileSystem) (config : DirectoryConfig) :
    LoadResult :=
  config.paths.foldl (directory_loader.load_from_config_step fs) ⟨[], [], []⟩

/-- Repeated KnownValuesStore::insert over a value sequence in order. -/
def KnownValuesStore.insertAll (s : KnownValuesStore)
    (values : List KnownValue) : KnownValuesStore :=
  values.foldl KnownValuesStore.insert s

/-- KnownValuesStore::load_from_directory: strict load, then insert every
loaded value; returns the count. -/
def KnownValuesStore.load_from_directory (s : KnownValuesStore)
    (fs : FileSystem) (path : String) :
    Except LoadError (KnownValuesStore × Nat) :=
  match directory_loader.load_from_directory fs path with
  | .ok values => .ok (s.insertAll values, values.length)
  | .error e => .error e

/-- KnownValuesStore::load_from_config: aggregate load, then insert every
merged value (result.values.values()). -/
def KnownValuesStore.load_from_config (s : KnownValuesStore)
    (fs : FileSystem) (config : DirectoryConfig) :
    KnownValuesStore × LoadResult :=
  let result := directory_loader.load_from_config fs config
  (s.insertAll (result.values.map Prod.snd), result)

/-- ConfigError of src/directory_loader.rs. -/
inductive ConfigError where
  | alreadyInitialized
deriving DecidableEq, Repr

/-- The process-global mutable state of the crate: the CUSTOM_CONFIG
cell, the CONFIG_LOCKED flag, and the Once plus data cell of the
KNOWN_VALUES LazyKnownValues singleton. -/
structure GlobalState where
  custom_config : Option DirectoryConfig
  config_locked : Bool
  once_fired : Bool
  data : Option KnownValuesStore
deriving DecidableEq, Repr

/-- The state at process start. -/
def initialGlobalState : GlobalState := ⟨none, false, false, none⟩

/-- set_directory_config of src/directory_loader.rs. -/
def set_directory_config (config : DirectoryConfig) (s : GlobalState) :
    Except ConfigError Unit × GlobalState :=
  if s.config_locked then (.error .alreadyInitialized, s)
  else (.ok (), { s with custom_config := some config })

/-- add_search_paths of src/directory_loader.rs: refuse when locked, else
start from the pending configuration (or the default-only configuration
when none is pending) and append each path. -/
def add_search_paths (home_dir : Option String) (paths : List String)
    (s : GlobalState) : Except ConfigError Unit × GlobalState :=
  if s.config_locked then (.error .alreadyInitialized, s)
  else
    let config :=
      match s.custom_config with
      | some c => c
      | none => DirectoryConfig.default_only home_dir
    (.ok (), { s with
      custom_config := some (paths.foldl DirectoryConfig.add_path config) })

/-- get_and_lock_config of src/directory_loader.rs: set CONFIG_LOCKED,
take the pending configuration, default to default_only. -/
def get_and_lock_config (home_dir : Option String) (s : GlobalState) :
    DirectoryConfig × GlobalState :=
  let taken :=
    match s.custom_config with
    | some c => c
    | none => DirectoryConfig.default_only home_dir
  (taken, { s with config_locked := true, custom_config := none })

set_option maxHeartbeats 2000000 in
/-- The built-in identifier table of src/known_values_registry.rs, in the
order LazyKnownValues::get passes it to KnownValuesStore::new. -/
def builtin_known_values : List KnownValue := [
  ⟨1, some "isA"⟩, ⟨2, some "id"⟩, ⟨3, some "signed"⟩, ⟨4, some "note"⟩,
  ⟨5, some "hasRecipient"⟩, ⟨6, some "sskrShare"⟩, ⟨7, some "controller"⟩,
  ⟨8, some "key"⟩, ⟨9, some "dereferenceVia"⟩, ⟨10, some "entity"⟩,
  ⟨11, some "name"⟩, ⟨12, some "language"⟩, ⟨13, some "issuer"⟩,
  ⟨14, some "holder"⟩, ⟨15, some "salt"⟩, ⟨16, some "date"⟩,
  ⟨17, some "Unknown"⟩, ⟨18, some "version"⟩, ⟨19, some "hasSecret"⟩,
  ⟨20, some "edits"⟩, ⟨21, some "validFrom"⟩, ⟨22, some "validUntil"⟩,
  ⟨50, some "attachment"⟩, ⟨51, some "vendor"⟩, ⟨52, some "conformsTo"⟩,
  ⟨60, some "allow"⟩, ⟨61, some "deny"⟩, ⟨62, some "endpoint"⟩,
  ⟨63, some "delegate"⟩, ⟨64, some "provenance"⟩, ⟨65, some "privateKey"⟩,
  ⟨66, some "service"⟩, ⟨67, some "capability"⟩,
  ⟨70, some "All"⟩, ⟨71, some "Auth"⟩, ⟨72, some "Sign"⟩,
  ⟨73, some "Encrypt"⟩, ⟨74, some "Elide"⟩, ⟨75, some "Issue"⟩,
  ⟨76, some "Access"⟩, ⟨80, some "Delegate"⟩, ⟨81, some "Verify"⟩,
  ⟨82, some "Update"⟩, ⟨83, some "Transfer"⟩, ⟨84, some "Elect"⟩,
  ⟨85, some "Burn"⟩, ⟨86, some "Revoke"⟩,
  ⟨100, some "body"⟩, ⟨101, some "result"⟩, ⟨102, some "error"⟩,
  ⟨103, some "OK"⟩, ⟨104, some "Processing"⟩, ⟨105, some "sender"⟩,
  ⟨106, some "senderContinuation"⟩, ⟨107, some "recipientContinuation"⟩,
  ⟨108, some "content"⟩,
  ⟨200, some "Seed"⟩, ⟨201, some "PrivateKey"⟩, ⟨202, some "PublicKey"⟩,
  ⟨203, some "MasterKey"⟩,
  ⟨300, some "asset"⟩, ⟨301, some "BTC"⟩, ⟨302, some "ETH"⟩,
  ⟨303, some "XTZ"⟩,
  ⟨400, some "network"⟩, ⟨401, some "MainNet"⟩, ⟨402, some "TestNet"⟩,
  ⟨500, some "BIP32Key"⟩, ⟨501, some "chainCode"⟩,
  ⟨502, some "DerivationPath"⟩, ⟨503, some "parent"⟩,
  ⟨504, some "children"⟩, ⟨505, some "parentFingerprint"⟩,
  ⟨506, some "PSBT"⟩, ⟨507, some "OutputDescriptor"⟩,
  ⟨508, some "outputDescriptor"⟩,
  ⟨600, some "graph"⟩, ⟨601, some "SourceTargetGraph"⟩,
  ⟨602, some "ParentChildGraph"⟩, ⟨603, some "Digraph"⟩,
  ⟨604, some "AcyclicGraph"⟩, ⟨605, some "Multigraph"⟩,
  ⟨606, some "Pseudograph"⟩, ⟨607, some "GraphFragment"⟩,
  ⟨608, some "DAG"⟩, ⟨609, some "Tree"⟩, ⟨610, some "Forest"⟩,
  ⟨611, some "CompoundGraph"⟩, ⟨612, some "Hypergraph"⟩,
  ⟨613, some "Dihypergraph"⟩,
  ⟨700, some "node"⟩, ⟨701, some "edge"⟩, ⟨702, some "source"⟩,
  ⟨703, some "target"⟩, ⟨704, some "parent"⟩, ⟨705, some "child"⟩]

/-- LazyKnownValues::get of src/known_values_registry.rs: on the first
call the Once body builds the store from the built-in table and stores
it; every call returns the data cell. The source body touches neither the
filesystem nor the directory configuration. -/
def LazyKnownValues.get (s : GlobalState) :
    Option KnownValuesStore × GlobalState :=
  let s1 :=
    if s.once_fired then s
    else { s with
      once_fired := true,
      data := some (KnownValuesStore.new builtin_known_values) }
  (s1.data, s1)

/-- Fixture: a registry file entry list defining one codepoint. -/
def singleEntryRegistry (codepoint : Nat) (canonical_name : String) :
    RegistryFile :=
  ⟨none, none, [⟨codepoint, canonical_name, none, none, none⟩], none⟩

/-- Fixture: a directory entry whose json file fails to parse. -/
def badRegFile : FsFile := ⟨"/reg/bad.json", true, .parseErr⟩

/-- Fixture: a directory entry whose json file parses to one value. -/
def goodRegFile : FsFile :=
  ⟨"/reg/good.json", true, .parsed (singleEntryRegistry 40001 "validValue")⟩

/-- Fixture: a filesystem with one directory holding a malformed json
file followed by a well-formed one. -/
def fsParseMix : FileSystem := fun p =>
  if p = "/reg" then .files [badRegFile, goodRegFile] else .missing

/-- Fixture: two directories both defining codepoint 30000 with different
names, as in the crate integration test. -/
def fsTwoDirs : FileSystem := fun p =>
  if p = "/one" then
    .files [⟨"/one/first.json", true,
      .parsed (singleEntryRegistry 30000 "firstVersion")⟩]
  else if p = "/two" then
    .files [⟨"/two/second.json", true,
      .parsed (singleEntryRegistry 30000 "secondVersion")⟩]
  else .missing

/-- Fixture: an overlay directory redefining built-in codepoint 1. -/
def fsOverride : FileSystem := fun p =>
  if p = "/ov" then
    .files [⟨"/ov/override.json", true,
      .parsed (singleEntryRegistry 1 "overriddenIsA")⟩]
  else .missing

theorem lookupA_insertA_self {α β : Type} [DecidableEq α] (k : α) (v : β)
    (l : List (α × β)) : lookupA k (insertA k v l) = some v := by
  induction l with
  | nil => simp [insertA, lookupA]
  | cons p rest ih =>
    obtain ⟨k2, v2⟩ := p
    by_cases h : k2 = k
    · simp [insertA, lookupA, h]
    · simp [insertA, lookupA, h, ih]

theorem lookupA_insertA_ne {α β : Type} [DecidableEq α] {k k2 : α} (v : β)
    (l : List (α × β)) (h : k2 ≠ k) :
    lookupA k (insertA k2 v l) = lookupA k l := by
  induction l with
  | nil => simp [insertA, lookupA, h]
  | cons p rest ih =>
    obtain ⟨k3, v3⟩ := p
    by_cases h3 : k3 = k2
    · subst h3
      simp [insertA, lookupA, h]
    · by_cases h4 : k3 = k
      · simp [insertA, lookupA, h3, h4, Ne.symm h]
      · simp [insertA, lookupA, h3, h4, ih]

theorem lookupA_eraseA_ne {α β : Type} [DecidableEq α] {k k2 : α}
    (l : List (α × β)) (h : k2 ≠ k) :
    lookupA k (eraseA k2 l) = lookupA k l := by
  induction l with
  | nil => simp [eraseA, lookupA]
  | cons p rest ih =>
    obtain ⟨k3, v3⟩ := p
    by_cases h3 : k3 = k2
    · subst h3
      simp [eraseA, lookupA, h]
    · simp [eraseA, lookupA, h3, ih]

theorem lookupA_eraseA_none {α β : Type} [DecidableEq α] {k k2 : α}
    (l : List (α × β)) (h : lookupA k l = none) :
    lookupA k (eraseA k2 l) = none := by
  induction l with
  | nil => simpa [eraseA] using h
  | cons p rest ih =>
    obtain ⟨k3, v3⟩ := p
    by_cases h3 : k3 = k
    · simp [lookupA, h3] at h
    · by_cases h4 : k3 = k2
      · simp [lookupA, h3] at h
        simp [eraseA, h4, lookupA, h3, h]
      · simp [lookupA, h3] at h
        simp [eraseA, h4, lookupA, h3, ih h]

theorem mem_insertA {α β : Type} [DecidableEq α] {k : α} {v : β}
    {l : List (α × β)} {p : α × β} (h : p ∈ insertA k v l) :
    p = (k, v) ∨ p ∈ l := by
  induction l with
  | nil =>
    simp [insertA] at h
    exact Or.inl h
  | cons q rest ih =>
    obtain ⟨k2, v2⟩ := q
    by_cases h2 : k2 = k
    · simp [insertA, h2] at h
      rcases h with h | h
      · exact Or.inl h
      · exact Or.inr (List.mem_cons_of_mem _ h)
    · simp only [insertA, if_neg h2, List.mem_cons] at h
      rcases h with h | h
      · exact Or.inr (h ▸ List.mem_cons_self (k2, v2) rest)
      · rcases ih h with h | h
        · exact Or.inl h
        · exact Or.inr (List.mem_cons_of_mem _ h)

theorem lookupA_eq_none_of_not_mem_keys {α β : Type} [DecidableEq α] {k : α}
    {l : List (α × β)} (h : k ∉ l.map Prod.fst) : lookupA k l = none := by
  induction l with
  | nil => rfl
  | cons p rest ih =>
    obtain ⟨k2, v2⟩ := p
    simp only [List.map_cons, List.mem_cons] at h
    push_neg at h
    simp [lookupA, Ne.symm h.1, ih h.2]

theorem keys_eraseA_sublist {α β : Type} [DecidableEq α] (k : α)
    (l : List (α × β)) :
    ((eraseA k l).map Prod.fst).Sublist (l.map Prod.fst) := by
  induction l with
  | nil => simp [eraseA]
  | cons p rest ih =>
    obtain ⟨k2, v2⟩ := p
    by_cases h : k2 = k
    · simp only [eraseA, if_pos h, List.map_cons]
      exact List.sublist_cons_self k2 (rest.map Prod.fst)
    · simp only [eraseA, if_neg h, List.map_cons]
      exact List.Sublist.cons₂ k2 ih

theorem nodup_keys_eraseA {α β : Type} [DecidableEq α] (k : α)
    {l : List (α × β)} (h : (l.map Prod.fst).Nodup) :
    ((eraseA k l).map Prod.fst).Nodup :=
  (keys_eraseA_sublist k l).nodup h

theorem nodup_keys_insertA {α β : Type} [DecidableEq α] (k : α) (v : β)
    {l : List (α × β)} (h : (l.map Prod.fst).Nodup) :
    ((insertA k v l).map Prod.fst).Nodup := by
  induction l with
  | nil => simp [insertA]
  | cons p rest ih =>
    obtain ⟨k2, v2⟩ := p
    simp only [List.map_cons, List.nodup_cons] at h
    by_cases h2 : k2 = k
    · subst h2
      simpa [insertA] using And.intro h.1 h.2
    · simp only [insertA, if_neg h2, List.map_cons, List.nodup_cons]
      refine ⟨?_, ih h.2⟩
      intro hmem
      rcases List.mem_map.mp hmem with ⟨q, hq, hfst⟩
      rcases mem_insertA hq with hq | hq
      · rw [hq] at hfst
        exact h2 hfst.symm
      · exact h.1 (List.mem_map.mpr ⟨q, hq, hfst⟩)

theorem lookupA_eraseA_self_of_nodup {α β : Type} [DecidableEq α] (k : α)
    {l : List (α × β)} (h : (l.map Prod.fst).Nodup) :
    lookupA k (eraseA k l) = none := by
  induction l with
  | nil => rfl
  | cons p rest ih =>
    obtain ⟨k2, v2⟩ := p
    simp only [List.map_cons, List.nodup_cons] at h
    by_cases h2 : k2 = k
    · subst h2
      simp only [eraseA, if_pos rfl]
      exact lookupA_eq_none_of_not_mem_keys h.1
    · simp [eraseA, h2, lookupA, ih h.2]

theorem addNewName_eq_insert {kv : KnownValue} {n : String}
    (bn : List (String × KnownValue)) (h : kv.assigned_name = some n) :
    addNewName kv bn = insertA n kv bn := by
  simp [addNewName, h]

theorem addNewName_eq_self {kv : KnownValue}
    (bn : List (String × KnownValue)) (h : kv.assigned_name = none) :
    addNewName kv bn = bn := by
  simp [addNewName, h]

theorem stripOldName_eq_erase {kv old : KnownValue} {oldn : String}
    (br : List (Nat × KnownValue)) (bn : List (String × KnownValue))
    (h1 : lookupA kv.value br = some old)
    (h2 : old.assigned_name = some oldn) :
    stripOldName kv br bn = eraseA oldn bn := by
  simp [stripOldName, h1, h2]

theorem stripOldName_eq_self_unnamed {kv old : KnownValue}
    (br : List (Nat × KnownValue)) (bn : List (String × KnownValue))
    (h1 : lookupA kv.value br = some old)
    (h2 : old.assigned_name = none) :
    stripOldName kv br bn = bn := by
  simp [stripOldName, h1, h2]

theorem stripOldName_eq_self_fresh {kv : KnownValue}
    (br : List (Nat × KnownValue)) (bn : List (String × KnownValue))
    (h1 : lookupA kv.value br = none) :
    stripOldName kv br bn = bn := by
  simp [stripOldName, h1]

theorem nodup_keys_stripOldName (kv : KnownValue)
    (br : List (Nat × KnownValue)) {bn : List (String × KnownValue)}
    (h : (bn.map Prod.fst).Nodup) :
    ((stripOldName kv br bn).map Prod.fst).Nodup := by
  cases hlk : lookupA kv.value br with
  | none =>
    rw [stripOldName_eq_self_fresh br bn hlk]
    exact h
  | some old =>
    cases hon : old.assigned_name with
    | none =>
      rw [stripOldName_eq_self_unnamed br bn hlk hon]
      exact h
    | some oldn =>
      rw [stripOldName_eq_erase br bn hlk hon]
      exact nodup_keys_eraseA oldn h

theorem insert_preserves_WF (s : KnownValuesStore) (kv : KnownValue)
    (hwf : s.WF) : (s.insert kv).WF := by
  constructor
  · exact nodup_keys_insertA _ _ hwf.1
  · show ((addNewName kv (stripOldName kv s.known_values_by_raw_value
      s.known_values_by_assigned_name)).map Prod.fst).Nodup
    have h1 := nodup_keys_stripOldName kv s.known_values_by_raw_value hwf.2
    cases hname : kv.assigned_name with
    | some m =>
      rw [addNewName_eq_insert _ hname]
      exact nodup_keys_insertA _ _ h1
    | none =>
      rw [addNewName_eq_self _ hname]
      exact h1

theorem insert_preserves_noDangling (s : KnownValuesStore) (kv : KnownValue)
    (hwf : s.WF) (hnd : s.NoDanglingNames) :
    (s.insert kv).NoDanglingNames := by
  intro n w hw
  have hw2 : lookupA n (addNewName kv (stripOldName kv
      s.known_values_by_raw_value s.known_values_by_assigned_name)) = some w := hw
  have hraw : (s.insert kv).known_values_by_raw_value
      = insertA kv.value kv s.known_values_by_raw_value := rfl
  -- Reduce to a lookup in the stripped name index, handling the case in
  -- which n is exactly the newly indexed name.
  have core : lookupA n (stripOldName kv s.known_values_by_raw_value
      s.known_values_by_assigned_name) = some w →
      w.assigned_name = some n ∧
      lookupA w.value (s.insert kv).known_values_by_raw_value = some w := by
    intro hw1
    cases hlk : lookupA kv.value s.known_values_by_raw_value with
    | none =>
      rw [stripOldName_eq_self_fresh _ _ hlk] at hw1
      obtain ⟨ha, hb⟩ := hnd n w hw1
      refine ⟨ha, ?_⟩
      rw [hraw]
      by_cases hvv : kv.value = w.value
      · rw [hvv] at hlk
        rw [hlk] at hb
        cases hb
      · rw [lookupA_insertA_ne _ _ hvv]
        exact hb
    | some old =>
      cases hon : old.assigned_name with
      | none =>
        rw [stripOldName_eq_self_unnamed _ _ hlk hon] at hw1
        obtain ⟨ha, hb⟩ := hnd n w hw1
        refine ⟨ha, ?_⟩
        rw [hraw]
        by_cases hvv : kv.value = w.value
        · rw [hvv] at hlk
          rw [hlk] at hb
          have how : old = w := Option.some.inj hb
          rw [how, ha] at hon
          cases hon
        · rw [lookupA_insertA_ne _ _ hvv]
          exact hb
      | some oldn =>
        rw [stripOldName_eq_erase _ _ hlk hon] at hw1
        by_cases hhon : oldn = n
        · subst hhon
          rw [lookupA_eraseA_self_of_nodup oldn hwf.2] at hw1
          cases hw1
        · rw [lookupA_eraseA_ne _ hhon] at hw1
          obtain ⟨ha, hb⟩ := hnd n w hw1
          refine ⟨ha, ?_⟩
          rw [hraw]
          by_cases hvv : kv.value = w.value
          · rw [hvv] at hlk
            rw [hlk] at hb
            have how : old = w := Option.some.inj hb
            rw [how, ha] at hon
            exact absurd (Option.some.inj hon).symm hhon
          · rw [lookupA_insertA_ne _ _ hvv]
            exact hb
  cases hname : kv.assigned_name with
  | some m =>
    rw [addNewName_eq_insert _ hname] at hw2
    by_cases hmn : m = n
    · subst hmn
      rw [lookupA_insertA_self] at hw2
      have hkw : kv = w := Option.some.inj hw2
      subst hkw
      refine ⟨hname, ?_⟩
      rw [hraw]
      exact lookupA_insertA_self kv.value kv _
    · rw [lookupA_insertA_ne _ _ hmn] at hw2
      exact core hw2
  | none =>
    rw [addNewName_eq_self _ hname] at hw2
    exact core hw2

theorem foldl_insertMaps_eq_insertAll (l : List KnownValue)
    (br : List (Nat × KnownValue)) (bn : List (String × KnownValue)) :
    l.foldl (fun maps kv => KnownValuesStore.insertMaps kv maps.1 maps.2)
      (br, bn)
    = (((⟨br, bn⟩ : KnownValuesStore).insertAll l).known_values_by_raw_value,
        ((⟨br, bn⟩ : KnownValuesStore).insertAll l).known_values_by_assigned_name) := by
  induction l generalizing br bn with
  | nil => rfl
  | cons kv rest ih =>
    show rest.foldl _ (KnownValuesStore.insertMaps kv br bn) = _
    exact ih ((⟨br, bn⟩ : KnownValuesStore).insert kv).known_values_by_raw_value
      ((⟨br, bn⟩ : KnownValuesStore).insert kv).known_values_by_assigned_name

theorem new_eq_insertAll (l : List KnownValue) :
    KnownValuesStore.new l = (KnownValuesStore.new []).insertAll l := by
  simp only [KnownValuesStore.new]
  rw [foldl_insertMaps_eq_insertAll l [] []]
  rfl

theorem insertAll_preserves_WF_noDangling (l : List KnownValue)
    (s : KnownValuesStore) (h : s.WF ∧ s.NoDanglingNames) :
    (s.insertAll l).WF ∧ (s.insertAll l).NoDanglingNames := by
  induction l generalizing s with
  | nil => exact h
  | cons kv rest ih =>
    exact ih (s.insert kv)
      ⟨insert_preserves_WF s kv h.1,
       insert_preserves_noDangling s kv h.1 h.2⟩

theorem reachable_WF_and_noDangling {s : KnownValuesStore}
    (h : ReachableStore s) : s.WF ∧ s.NoDanglingNames := by
  induction h with
  | base l =>
    rw [new_eq_insertAll]
    refine insertAll_preserves_WF_noDangling l (KnownValuesStore.new []) ⟨⟨?_, ?_⟩, ?_⟩
    · exact List.nodup_nil
    · exact List.nodup_nil
    · intro n kv hkv
      cases hkv
  | step kv _ ih =>
    exact ⟨insert_preserves_WF _ kv ih.1,
      insert_preserves_noDangling _ kv ih.1 ih.2⟩

/-- C3 counterexample: the invariant claimed for every reachable store
fails on the store built from the collection [{1,"x"}, {2,"x"}]. The
codepoint index maps 1 to an identifier named "x", but the name index
maps "x" to the identifier with codepoint 2, so no name index entry for
"x" has codepoint 1. -/
theorem store_name_invariant_counterexample :
    ¬ StoreNameInvariant (KnownValuesStore.new [⟨1, some "x"⟩, ⟨2, some "x"⟩]) := by
  intro h
  obtain ⟨kv2, hl, hv⟩ := h.1 1 ⟨1, some "x"⟩ "x" (by decide) rfl
  have hx : lookupA "x" (KnownValuesStore.new
      [⟨1, some "x"⟩, ⟨2, some "x"⟩]).known_values_by_assigned_name
      = some ⟨2, some "x"⟩ := by decide
  rw [hx] at hl
  have hk : (⟨2, some "x"⟩ : KnownValue) = kv2 := Option.some.inj hl
  rw [← hk] at hv
  exact absurd hv (by decide)

/-- C3 (amended): every store reachable by any sequence of insert
operations (from any initial collection) has no dangling name entries:
every name index binding n ↦ id satisfies id.assigned_name = n and the
codepoint index currently maps id.value to id. The converse direction of
the claimed invariant — that every named codepoint index entry is still
reflected in the name index — fails when two codepoints share a name. -/
theorem reachable_store_no_dangling_names (s : KnownValuesStore)
    (h : ReachableStore s) : s.NoDanglingNames :=
  (reachable_WF_and_noDangling h).2

theorem reachable_store_no_dangling_names_witness :
    (⟨1, some "x"⟩ : KnownValue).assigned_name = some "x" ∧
    lookupA 1 (KnownValuesStore.new
      [⟨1, some "x"⟩]).known_values_by_raw_value = some ⟨1, some "x"⟩ :=
  reachable_store_no_dangling_names _
    (ReachableStore.base [⟨1, some "x"⟩]) "x" ⟨1, some "x"⟩ (by decide)

/-- C4: inserting identifier {c, a} and then {c, b} (same codepoint,
distinct names) into any store removes the stale name a from the name
index, makes b resolve to {c, b}, and makes the codepoint lookup of c
yield name b. -/
theorem insert_then_insert_same_codepoint (s : KnownValuesStore) (c : Nat)
    (a b : String) (hab : a ≠ b)
    (hwf : (s.known_values_by_assigned_name.map Prod.fst).Nodup) :
    (((s.insert (KnownValue.new_with_name c a)).insert
        (KnownValue.new_with_name c b)).known_value_named a = none) ∧
    (((s.insert (KnownValue.new_with_name c a)).insert
        (KnownValue.new_with_name c b)).known_value_named b =
      some (KnownValue.new_with_name c b)) ∧
    ((KnownValuesStore.known_value_for_raw_value c
        (some ((s.insert (KnownValue.new_with_name c a)).insert
          (KnownValue.new_with_name c b)))).name = b) := by
  have h1raw : (s.insert (KnownValue.new_with_name c a)).known_values_by_raw_value
      = insertA c (KnownValue.new_with_name c a) s.known_values_by_raw_value := rfl
  have h1name : (s.insert (KnownValue.new_with_name c a)).known_values_by_assigned_name
      = insertA a (KnownValue.new_with_name c a)
          (stripOldName (KnownValue.new_with_name c a)
            s.known_values_by_raw_value s.known_values_by_assigned_name) := rfl
  have h2lookup : lookupA c
      (s.insert (KnownValue.new_with_name c a)).known_values_by_raw_value
      = some (KnownValue.new_with_name c a) := by
    rw [h1raw]
    exact lookupA_insertA_self c _ _
  have h2name : ((s.insert (KnownValue.new_with_name c a)).insert
      (KnownValue.new_with_name c b)).known_values_by_assigned_name
      = insertA b (KnownValue.new_with_name c b)
          (eraseA a (s.insert
            (KnownValue.new_with_name c a)).known_values_by_assigned_name) := by
    show addNewName (KnownValue.new_with_name c b)
      (stripOldName (KnownValue.new_with_name c b)
        (s.insert (KnownValue.new_with_name c a)).known_values_by_raw_value
        (s.insert (KnownValue.new_with_name c a)).known_values_by_assigned_name) = _
    rw [stripOldName_eq_erase _ _ h2lookup rfl]
    rfl
  have hnodup1 : (((s.insert
      (KnownValue.new_with_name c a)).known_values_by_assigned_name).map
        Prod.fst).Nodup := by
    rw [h1name]
    exact nodup_keys_insertA _ _ (nodup_keys_stripOldName _ _ hwf)
  have h2raw : ((s.insert (KnownValue.new_with_name c a)).insert
      (KnownValue.new_with_name c b)).known_values_by_raw_value
      = insertA c (KnownValue.new_with_name c b)
          (s.insert (KnownValue.new_with_name c a)).known_values_by_raw_value := rfl
  refine ⟨?_, ?_, ?_⟩
  · show lookupA a ((s.insert (KnownValue.new_with_name c a)).insert
      (KnownValue.new_with_name c b)).known_values_by_assigned_name = none
    rw [h2name, lookupA_insertA_ne _ _ (Ne.symm hab)]
    exact lookupA_eraseA_self_of_nodup a hnodup1
  · show lookupA b ((s.insert (KnownValue.new_with_name c a)).insert
      (KnownValue.new_with_name c b)).known_values_by_assigned_name = some _
    rw [h2name]
    exact lookupA_insertA_self b _ _
  · have hlook : lookupA c ((s.insert (KnownValue.new_with_name c a)).insert
        (KnownValue.new_with_name c b)).known_values_by_raw_value
        = some (KnownValue.new_with_name c b) := by
      rw [h2raw]
      exact lookupA_insertA_self c _ _
    have hres : KnownValuesStore.known_value_for_raw_value c
        (some ((s.insert (KnownValue.new_with_name c a)).insert
          (KnownValue.new_with_name c b))) = KnownValue.new_with_name c b := by
      simp [KnownValuesStore.known_value_for_raw_value, hlook]
    rw [hres]
    rfl

theorem insert_then_insert_same_codepoint_witness :
    (((KnownValuesStore.new []).insert
        (KnownValue.new_with_name 1000 "x")).insert
      (KnownValue.new_with_name 1000 "y")).known_value_named "x" = none ∧
    (((KnownValuesStore.new []).insert
        (KnownValue.new_with_name 1000 "x")).insert
      (KnownValue.new_with_name 1000 "y")).known_value_named "y" =
        some (KnownValue.new_with_name 1000 "y") ∧
    (KnownValuesStore.known_value_for_raw_value 1000
      (some (((KnownValuesStore.new []).insert
        (KnownValue.new_with_name 1000 "x")).insert
          (KnownValue.new_with_name 1000 "y")))).name = "y" :=
  insert_then_insert_same_codepoint (KnownValuesStore.new []) 1000 "x" "y"
    (by decide) (by decide)

/-- C8: codepoint lookup through known_value_for_raw_value never fails:
with a store containing the codepoint it returns the stored identifier,
and otherwise — including when no store is provided — it returns the
fresh nameless identifier for that codepoint. -/
theorem known_value_for_raw_value_total (raw_value : Nat)
    (known_values : Option KnownValuesStore) :
    (∀ s, known_values = some s →
      ∀ kv, lookupA raw_value s.known_values_by_raw_value = some kv →
        KnownValuesStore.known_value_for_raw_value raw_value known_values = kv) ∧
    (known_values.bind
        (fun s => lookupA raw_value s.known_values_by_raw_value) = none →
      KnownValuesStore.known_value_for_raw_value raw_value known_values =
        KnownValue.new raw_value) := by
  constructor
  · rintro s rfl kv h
    simp [KnownValuesStore.known_value_for_raw_value, h]
  · intro h
    simp [KnownValuesStore.known_value_for_raw_value, h]

theorem known_value_for_raw_value_total_witness :
    KnownValuesStore.known_value_for_raw_value 1
      (some (KnownValuesStore.new [⟨1, some "isA"⟩])) = ⟨1, some "isA"⟩ ∧
    KnownValuesStore.known_value_for_raw_value 999 none = KnownValue.new 999 :=
  ⟨(known_value_for_raw_value_total 1
      (some (KnownValuesStore.new [⟨1, some "isA"⟩]))).1 _ rfl _ (by decide),
   (known_value_for_raw_value_total 999 none).2 rfl⟩

/-- C9: name() of an identifier with no assigned name is exactly the
base-10 decimal string of its codepoint, and of an identifier with an
assigned name is that name; the function is total and deterministic. -/
theorem known_value_name_fallback (kv : KnownValue) :
    (kv.assigned_name = none → kv.name = Nat.repr kv.value) ∧
    (∀ n, kv.assigned_name = some n → kv.name = n) := by
  constructor
  · intro h
    simp [KnownValue.name, h]
  · intro n h
    simp [KnownValue.name, h]

theorem known_value_name_fallback_witness :
    (KnownValue.new 1000).name = Nat.repr 1000 ∧
    (KnownValue.new_with_name 1 "isA").name = "isA" :=
  ⟨(known_value_name_fallback (KnownValue.new 1000)).1 rfl,
   (known_value_name_fallback (KnownValue.new_with_name 1 "isA")).2 "isA" rfl⟩

theorem load_files_tolerant_mem_errors (l : List FsFile) (f : FsFile)
    (hmem : f ∈ l) (hj : f.is_json = true) {err : LoadError}
    (herr : directory_loader.load_single_file f = .error err) :
    (f.path, err) ∈ (directory_loader.load_files_tolerant l).2 := by
  induction l with
  | nil => cases hmem
  | cons q rest ih =>
    rcases List.mem_cons.mp hmem with h | h
    · subst h
      simp [directory_loader.load_files_tolerant, hj, herr]
    · have ihm := ih h
      by_cases hqj : q.is_json
      · cases hq : directory_loader.load_single_file q with
        | ok qv =>
          simpa [directory_loader.load_files_tolerant, hqj, hq] using ihm
        | error e2 =>
          simp [directory_loader.load_files_tolerant, hqj, hq]
          exact Or.inr ihm
      · simpa [directory_loader.load_files_tolerant, hqj] using ihm

theorem load_files_tolerant_mem_values (l : List FsFile) (g : FsFile)
    (hmem : g ∈ l) (hj : g.is_json = true) {vs : List KnownValue}
    (hok : directory_loader.load_single_file g = .ok vs) {v : KnownValue}
    (hv : v ∈ vs) : v ∈ (directory_loader.load_files_tolerant l).1 := by
  induction l with
  | nil => cases hmem
  | cons q rest ih =>
    rcases List.mem_cons.mp hmem with h | h
    · subst h
      simp [directory_loader.load_files_tolerant, hj, hok]
      exact Or.inl hv
    · have ihm := ih h
      by_cases hqj : q.is_json
      · cases hq : directory_loader.load_single_file q with
        | ok qv =>
          simp [directory_loader.load_files_tolerant, hqj, hq]
          exact Or.inr ihm
        | error e2 =>
          simpa [directory_loader.load_files_tolerant, hqj, hq] using ihm
      · simpa [directory_loader.load_files_tolerant, hqj] using ihm

/-- C6 counterexample: in a directory holding a malformed json file and a
well-formed sibling, the strict single-location load (the function
load_from_directory the claim names) aborts with the parse error as a
hard failure instead of recording it per-file and continuing: its result
is an error and not Ok for any value list. -/
theorem load_from_directory_parse_failure_counterexample :
    directory_loader.load_from_directory fsParseMix "/reg"
      = .error (.json "/reg/bad.json") ∧
    ∀ vs, directory_loader.load_from_directory fsParseMix "/reg" ≠ .ok vs := by
  have h : directory_loader.load_from_directory fsParseMix "/reg"
      = .error (.json "/reg/bad.json") := rfl
  refine ⟨h, ?_⟩
  intro vs hv
  rw [h] at hv
  cases hv

/-- C6 (amended): the tolerant behavior belongs to
load_from_directory_tolerant, the single-location load used by the
aggregate loader: when the location lists its entries, the load returns
Ok, a json file whose parse fails contributes a per-file error, and every
entry of every json sibling that parses is still among the returned
values; only a failure to list the location is a hard failure. The strict
load_from_directory aborts on the first bad file instead. -/
theorem tolerant_load_records_per_file_errors (fs : FileSystem) (p : String)
    (l : List FsFile) (hdir : fs p = DirState.files l)
    (f : FsFile) (hfmem : f ∈ l) (hfj : f.is_json = true)
    (hfbad : f.content = FileContent.parseErr)
    (g : FsFile) (hgmem : g ∈ l) (hgj : g.is_json = true)
    (registry : RegistryFile)
    (hgok : g.content = FileContent.parsed registry) :
    directory_loader.load_from_directory_tolerant fs p
      = .ok (directory_loader.load_files_tolerant l) ∧
    (f.path, LoadError.json f.path)
      ∈ (directory_loader.load_files_tolerant l).2 ∧
    ∀ e ∈ registry.entries,
      toKnownValue e ∈ (directory_loader.load_files_tolerant l).1 := by
  refine ⟨?_, ?_, ?_⟩
  · simp [directory_loader.load_from_directory_tolerant, hdir]
  · exact load_files_tolerant_mem_errors l f hfmem hfj
      (by simp [directory_loader.load_single_file, hfbad])
  · intro e he
    exact load_files_tolerant_mem_values l g hgmem hgj
      (by simp [directory_loader.load_single_file, hgok])
      (List.mem_map_of_mem toKnownValue he)

theorem tolerant_load_records_per_file_errors_witness :
    directory_loader.load_from_directory_tolerant fsParseMix "/reg"
      = .ok (directory_loader.load_files_tolerant [badRegFile, goodRegFile]) ∧
    ("/reg/bad.json", LoadError.json "/reg/bad.json")
      ∈ (directory_loader.load_files_tolerant [badRegFile, goodRegFile]).2 ∧
    toKnownValue ⟨40001, "validValue", none, none, none⟩
      ∈ (directory_loader.load_files_tolerant [badRegFile, goodRegFile]).1 := by
  have h := tolerant_load_records_per_file_errors fsParseMix "/reg"
    [badRegFile, goodRegFile] rfl badRegFile (by decide) rfl rfl goodRegFile
    (by decide) rfl (singleEntryRegistry 40001 "validValue") rfl
  exact ⟨h.1, h.2.1, h.2.2 ⟨40001, "validValue", none, none, none⟩ (by decide)⟩

theorem load_step_congr (fs : FileSystem) (q : String)
    {a b : LoadResult} (hv : a.values = b.values) (he : a.errors = b.errors) :
    (directory_loader.load_from_config_step fs a q).values
      = (directory_loader.load_from_config_step fs b q).values ∧
    (directory_loader.load_from_config_step fs a q).errors
      = (directory_loader.load_from_config_step fs b q).errors := by
  cases hx : directory_loader.load_from_directory_tolerant fs q with
  | ok pair =>
    obtain ⟨vs, es⟩ := pair
    constructor
    · simp [directory_loader.load_from_config_step, hx, hv]
    · simp [directory_loader.load_from_config_step, hx, he]
  | error e =>
    constructor
    · simp [directory_loader.load_from_config_step, hx, hv]
    · simp [directory_loader.load_from_config_step, hx, he]

theorem load_foldl_congr (fs : FileSystem) (ps : List String)
    {a b : LoadResult} (hv : a.values = b.values) (he : a.errors = b.errors) :
    (ps.foldl (directory_loader.load_from_config_step fs) a).values
      = (ps.foldl (directory_loader.load_from_config_step fs) b).values ∧
    (ps.foldl (directory_loader.load_from_config_step fs) a).errors
      = (ps.foldl (directory_loader.load_from_config_step fs) b).errors := by
  induction ps generalizing a b with
  | nil => exact ⟨hv, he⟩
  | cons q rest ih =>
    simp only [List.foldl_cons]
    exact ih (load_step_congr fs q hv he).1 (load_step_congr fs q hv he).2

/-- C7: loading from a missing (absent or non-directory) location yields
an empty result and no error in every mode: the strict load returns
Ok([]), the tolerant load returns Ok with no values and no errors, and in
the aggregate load the location contributes no values and no error
entries to the LoadResult. -/
theorem missing_location_empty (fs : FileSystem) (p : String)
    (h : fs p = DirState.missing) :
    directory_loader.load_from_directory fs p = .ok [] ∧
    directory_loader.load_from_directory_tolerant fs p = .ok ([], []) ∧
    ∀ ps1 ps2 : List String,
      (directory_loader.load_from_config fs ⟨ps1 ++ p :: ps2⟩).values
        = (directory_loader.load_from_config fs ⟨ps1 ++ ps2⟩).values ∧
      (directory_loader.load_from_config fs ⟨ps1 ++ p :: ps2⟩).errors
        = (directory_loader.load_from_config fs ⟨ps1 ++ ps2⟩).errors := by
  refine ⟨by simp [directory_loader.load_from_directory, h],
    by simp [directory_loader.load_from_directory_tolerant, h], ?_⟩
  intro ps1 ps2
  have htol : directory_loader.load_from_directory_tolerant fs p
      = .ok ([], []) := by
    simp [directory_loader.load_from_directory_tolerant, h]
  have hstep : (directory_loader.load_from_config_step fs
        (ps1.foldl (directory_loader.load_from_config_step fs) ⟨[], [], []⟩)
        p).values
      = (ps1.foldl (directory_loader.load_from_config_step fs)
          ⟨[], [], []⟩).values ∧
      (directory_loader.load_from_config_step fs
        (ps1.foldl (directory_loader.load_from_config_step fs) ⟨[], [], []⟩)
        p).errors
      = (ps1.foldl (directory_loader.load_from_config_step fs)
          ⟨[], [], []⟩).errors := by
    constructor
    · simp [directory_loader.load_from_config_step, htol,
        directory_loader.mergeValues]
    · simp [directory_loader.load_from_config_step, htol]
  have hmain := load_foldl_congr fs ps2 hstep.1 hstep.2
  constructor
  · show ((ps1 ++ p :: ps2).foldl (directory_loader.load_from_config_step fs)
        ⟨[], [], []⟩).values
      = ((ps1 ++ ps2).foldl (directory_loader.load_from_config_step fs)
        ⟨[], [], []⟩).values
    rw [List.foldl_append, List.foldl_cons, List.foldl_append]
    exact hmain.1
  · show ((ps1 ++ p :: ps2).foldl (directory_loader.load_from_config_step fs)
        ⟨[], [], []⟩).errors
      = ((ps1 ++ ps2).foldl (directory_loader.load_from_config_step fs)
        ⟨[], [], []⟩).errors
    rw [List.foldl_append, List.foldl_cons, List.foldl_append]
    exact hmain.2

theorem missing_location_empty_witness :
    directory_loader.load_from_directory (fun _ => DirState.missing)
      "/nonexistent/path/12345" = .ok [] ∧
    directory_loader.load_from_directory_tolerant (fun _ => DirState.missing)
      "/nonexistent/path/12345" = .ok ([], []) ∧
    (directory_loader.load_from_config fsTwoDirs
      ⟨["/one", "/nonexistent/path/12345", "/two"]⟩).values
      = (directory_loader.load_from_config fsTwoDirs ⟨["/one", "/two"]⟩).values ∧
    (directory_loader.load_from_config fsTwoDirs
      ⟨["/one", "/nonexistent/path/12345", "/two"]⟩).errors
      = (directory_loader.load_from_config fsTwoDirs ⟨["/one", "/two"]⟩).errors := by
  have h1 := missing_location_empty (fun _ => DirState.missing)
    "/nonexistent/path/12345" rfl
  have h2 := missing_location_empty fsTwoDirs "/nonexistent/path/12345"
    (by decide)
  exact ⟨h1.1, h1.2.1, (h2.2.2 ["/one"] ["/two"]).1, (h2.2.2 ["/one"] ["/two"]).2⟩

theorem mergeValues_append_singleton (vs : List KnownValue) (v : KnownValue)
    (m : List (Nat × KnownValue)) :
    directory_loader.mergeValues (vs ++ [v]) m
      = insertA v.value v (directory_loader.mergeValues vs m) := by
  simp [directory_loader.mergeValues, List.foldl_append]

theorem lookupA_mergeValues_stable (K : Nat) (kv : KnownValue)
    (vs : List KnownValue)
    (h : lookupA K (directory_loader.mergeValues vs []) = some kv)
    (m : List (Nat × KnownValue)) :
    lookupA K (directory_loader.mergeValues vs m) = some kv := by
  induction vs using List.reverseRecOn generalizing m with
  | nil => cases h
  | append_singleton vs v ih =>
    rw [mergeValues_append_singleton] at h
    rw [mergeValues_append_singleton]
    by_cases hvk : v.value = K
    · subst hvk
      rw [lookupA_insertA_self] at h
      rw [lookupA_insertA_self]
      exact h
    · rw [lookupA_insertA_ne _ _ hvk] at h
      rw [lookupA_insertA_ne _ _ hvk]
      exact ih h m

theorem mem_mergeValues {c : Nat} {w : KnownValue} (vs : List KnownValue)
    (m : List (Nat × KnownValue))
    (h : (c, w) ∈ directory_loader.mergeValues vs m) :
    (w ∈ vs ∧ c = w.value) ∨ (c, w) ∈ m := by
  induction vs generalizing m with
  | nil => exact Or.inr h
  | cons v rest ih =>
    rcases ih (insertA v.value v m) h with h2 | h2
    · exact Or.inl ⟨List.mem_cons_of_mem v h2.1, h2.2⟩
    · rcases mem_insertA h2 with h3 | h3
      · obtain ⟨hc, hw⟩ := Prod.mk.inj h3
        subst hw
        exact Or.inl ⟨List.mem_cons_self _ _, hc⟩
      · exact Or.inr h3

theorem nodup_keys_mergeValues (vs : List KnownValue)
    {m : List (Nat × KnownValue)} (h : (m.map Prod.fst).Nodup) :
    ((directory_loader.mergeValues vs m).map Prod.fst).Nodup := by
  induction vs generalizing m with
  | nil => exact h
  | cons v rest ih => exact ih (nodup_keys_insertA _ _ h)

theorem lookupA_of_mem_nodup {α β : Type} [DecidableEq α] {k : α} {v : β}
    {m : List (α × β)} (hmem : (k, v) ∈ m) (hnd : (m.map Prod.fst).Nodup) :
    lookupA k m = some v := by
  induction m with
  | nil => cases hmem
  | cons p rest ih =>
    obtain ⟨k2, v2⟩ := p
    simp only [List.map_cons, List.nodup_cons] at hnd
    rcases List.mem_cons.mp hmem with h | h
    · obtain ⟨hk, hv⟩ := Prod.mk.inj h
      subst hk
      subst hv
      simp [lookupA]
    · by_cases hk : k2 = k
      · subst hk
        have : k2 ∈ rest.map Prod.fst := List.mem_map.mpr ⟨(k2, v), h, rfl⟩
        exact absurd this hnd.1
      · simp [lookupA, hk, ih h hnd.2]

theorem mem_of_lookupA {α β : Type} [DecidableEq α] {k : α} {v : β}
    {m : List (α × β)} (h : lookupA k m = some v) : (k, v) ∈ m := by
  induction m with
  | nil => cases h
  | cons p rest ih =>
    obtain ⟨k2, v2⟩ := p
    by_cases hk : k2 = k
    · subst hk
      simp [lookupA] at h
      subst h
      exact List.mem_cons_self _ _
    · simp only [lookupA, if_neg hk] at h
      exact List.mem_cons_of_mem _ (ih h)

theorem insertAll_append_singleton (st : KnownValuesStore)
    (vs : List KnownValue) (v : KnownValue) :
    st.insertAll (vs ++ [v]) = (st.insertAll vs).insert v := by
  simp [KnownValuesStore.insertAll, List.foldl_append]

theorem insertAll_lookup_raw (vs : List KnownValue) (st : KnownValuesStore)
    (kv : KnownValue) (hmem : kv ∈ vs)
    (huniq : ∀ v ∈ vs, v.value = kv.value → v = kv) :
    lookupA kv.value (st.insertAll vs).known_values_by_raw_value = some kv := by
  induction vs using List.reverseRecOn with
  | nil => cases hmem
  | append_singleton vs v ih =>
    rw [insertAll_append_singleton]
    show lookupA kv.value (insertA v.value v
      ((st.insertAll vs).known_values_by_raw_value)) = some kv
    by_cases hv : v.value = kv.value
    · have hveq : v = kv := huniq v (by simp) hv
      subst hveq
      exact lookupA_insertA_self _ _ _
    · rw [lookupA_insertA_ne _ _ hv]
      have hmem2 : kv ∈ vs := by
        rcases List.mem_append.mp hmem with h | h
        · exact h
        · rw [List.mem_singleton] at h
          subst h
          exact absurd rfl hv
      exact ih hmem2 (fun w hw hwv => huniq w (List.mem_append_left _ hw) hwv)

theorem insert_preserves_name_none (st : KnownValuesStore) (v : KnownValue)
    (n : String) (hst : lookupA n st.known_values_by_assigned_name = none)
    (hv : v.assigned_name ≠ some n) :
    lookupA n (st.insert v).known_values_by_assigned_name = none := by
  show lookupA n (addNewName v (stripOldName v st.known_values_by_raw_value
    st.known_values_by_assigned_name)) = none
  have h1 : lookupA n (stripOldName v st.known_values_by_raw_value
      st.known_values_by_assigned_name) = none := by
    cases hlk : lookupA v.value st.known_values_by_raw_value with
    | none =>
      rw [stripOldName_eq_self_fresh _ _ hlk]
      exact hst
    | some old =>
      cases hon : old.assigned_name with
      | none =>
        rw [stripOldName_eq_self_unnamed _ _ hlk hon]
        exact hst
      | some oldn =>
        rw [stripOldName_eq_erase _ _ hlk hon]
        exact lookupA_eraseA_none _ hst
  cases hname : v.assigned_name with
  | none =>
    rw [addNewName_eq_self _ hname]
    exact h1
  | some m =>
    rw [addNewName_eq_insert _ hname]
    have hmn : m ≠ n := fun he => hv (he ▸ hname)
    rw [lookupA_insertA_ne _ _ hmn]
    exact h1

theorem insertAll_name_none (vs : List KnownValue) (st : KnownValuesStore)
    (n : String) (hst : lookupA n st.known_values_by_assigned_name = none)
    (hall : ∀ v ∈ vs, v.assigned_name ≠ some n) :
    lookupA n (st.insertAll vs).known_values_by_assigned_name = none := by
  induction vs generalizing st with
  | nil => exact hst
  | cons v rest ih =>
    exact ih (st.insert v)
      (insert_preserves_name_none st v n hst (hall v (List.mem_cons_self _ _)))
      (fun w hw => hall w (List.mem_cons_of_mem _ hw))

/-- C5: last-location-wins. For a configured load over locations
[L1, L2] whose tolerant loads succeed, where L1 defines codepoint K with
name n1 and L2 defines K with a different name n2 (and n1 is L1-K's name:
no other loaded entry carries n1), the merged result resolves K to the L2
identifier, and a store populated from the merged result resolves K to
the L2 identifier while n1 is absent from its name index. -/
theorem last_location_wins (fs : FileSystem) (L1 L2 : String) (K : Nat)
    (n1 n2 : String)
    (v1 : List KnownValue) (e1 : List (String × LoadError))
    (v2 : List KnownValue) (e2 : List (String × LoadError))
    (h1 : directory_loader.load_from_directory_tolerant fs L1 = .ok (v1, e1))
    (h2 : directory_loader.load_from_directory_tolerant fs L2 = .ok (v2, e2))
    (hK1 : lookupA K (directory_loader.mergeValues v1 []) = some ⟨K, some n1⟩)
    (hK2 : lookupA K (directory_loader.mergeValues v2 []) = some ⟨K, some n2⟩)
    (hne : n1 ≠ n2)
    (honly : ∀ v ∈ v1 ++ v2, v.assigned_name = some n1 → v.value = K) :
    lookupA K (directory_loader.load_from_config fs ⟨[L1, L2]⟩).values
      = some ⟨K, some n2⟩ ∧
    ((KnownValuesStore.new []).load_from_config fs
      ⟨[L1, L2]⟩).1.known_value_named n1 = none ∧
    KnownValuesStore.known_value_for_raw_value K
      (some ((KnownValuesStore.new []).load_from_config fs ⟨[L1, L2]⟩).1)
      = ⟨K, some n2⟩ := by
  have hres : directory_loader.load_from_config fs ⟨[L1, L2]⟩
      = ⟨directory_loader.mergeValues v2 (directory_loader.mergeValues v1 []),
          [L1, L2], e1 ++ e2⟩ := by
    simp [directory_loader.load_from_config,
      directory_loader.load_from_config_step, h1, h2]
  have hstore : ((KnownValuesStore.new []).load_from_config fs
      ⟨[L1, L2]⟩).1
      = (KnownValuesStore.new []).insertAll
          ((directory_loader.load_from_config fs
            ⟨[L1, L2]⟩).values.map Prod.snd) := rfl
  have hlook : lookupA K (directory_loader.mergeValues v2
      (directory_loader.mergeValues v1 [])) = some ⟨K, some n2⟩ :=
    lookupA_mergeValues_stable K _ v2 hK2 _
  have hnd : ((directory_loader.mergeValues v2
      (directory_loader.mergeValues v1 [])).map Prod.fst).Nodup :=
    nodup_keys_mergeValues v2 (nodup_keys_mergeValues v1 List.nodup_nil)
  have hmemM : ∀ c w, (c, w) ∈ directory_loader.mergeValues v2
      (directory_loader.mergeValues v1 []) → w ∈ v1 ++ v2 ∧ c = w.value := by
    intro c w hm
    rcases mem_mergeValues v2 _ hm with hmm | hmm
    · exact ⟨List.mem_append_right v1 hmm.1, hmm.2⟩
    · rcases mem_mergeValues v1 [] hmm with hmm2 | hmm2
      · exact ⟨List.mem_append_left v2 hmm2.1, hmm2.2⟩
      · cases hmm2
  have hKw : ∀ w, (K, w) ∈ directory_loader.mergeValues v2
      (directory_loader.mergeValues v1 []) → w = ⟨K, some n2⟩ := by
    intro w hm
    have := lookupA_of_mem_nodup hm hnd
    rw [hlook] at this
    exact (Option.some.inj this).symm
  have hall : ∀ w ∈ (directory_loader.mergeValues v2
      (directory_loader.mergeValues v1 [])).map Prod.snd,
      w.assigned_name ≠ some n1 := by
    intro w hw hcon
    rcases List.mem_map.mp hw with ⟨p, hp, hps⟩
    obtain ⟨c, w2⟩ := p
    cases hps
    obtain ⟨hwv, hcw⟩ := hmemM c w2 hp
    have hvK : w2.value = K := honly w2 hwv hcon
    rw [hcw, hvK] at hp
    have := hKw w2 hp
    rw [this] at hcon
    exact hne (Option.some.inj hcon).symm
  refine ⟨?_, ?_, ?_⟩
  · rw [hres]
    exact hlook
  · show lookupA n1 ((KnownValuesStore.new []).load_from_config fs
      ⟨[L1, L2]⟩).1.known_values_by_assigned_name = none
    rw [hstore, hres]
    exact insertAll_name_none _ _ n1 rfl hall
  · have hmem : (⟨K, some n2⟩ : KnownValue) ∈ (directory_loader.mergeValues v2
        (directory_loader.mergeValues v1 [])).map Prod.snd :=
      List.mem_map.mpr ⟨(K, ⟨K, some n2⟩), mem_of_lookupA hlook, rfl⟩
    have huniq : ∀ w ∈ (directory_loader.mergeValues v2
        (directory_loader.mergeValues v1 [])).map Prod.snd,
        w.value = (⟨K, some n2⟩ : KnownValue).value → w = ⟨K, some n2⟩ := by
      intro w hw hwv
      rcases List.mem_map.mp hw with ⟨p, hp, hps⟩
      obtain ⟨c, w2⟩ := p
      cases hps
      obtain ⟨_, hcw⟩ := hmemM c w2 hp
      rw [hcw, hwv] at hp
      exact hKw w2 hp
    have hrawlook : lookupA K (((KnownValuesStore.new []).load_from_config fs
        ⟨[L1, L2]⟩).1).known_values_by_raw_value = some ⟨K, some n2⟩ := by
      rw [hstore, hres]
      exact insertAll_lookup_raw _ _ ⟨K, some n2⟩ hmem huniq
    simp [KnownValuesStore.known_value_for_raw_value, hrawlook]

theorem last_location_wins_witness :
    lookupA 30000 (directory_loader.load_from_config fsTwoDirs
      ⟨["/one", "/two"]⟩).values = some ⟨30000, some "secondVersion"⟩ ∧
    ((KnownValuesStore.new []).load_from_config fsTwoDirs
      ⟨["/one", "/two"]⟩).1.known_value_named "firstVersion" = none ∧
    KnownValuesStore.known_value_for_raw_value 30000
      (some ((KnownValuesStore.new []).load_from_config fsTwoDirs
        ⟨["/one", "/two"]⟩).1) = ⟨30000, some "secondVersion"⟩ :=
  last_location_wins fsTwoDirs "/one" "/two" 30000 "firstVersion"
    "secondVersion" [⟨30000, some "firstVersion"⟩] []
    [⟨30000, some "secondVersion"⟩] [] rfl rfl (by decide)
    (by decide) (by decide) (by decide)

theorem foldl_add_path (ps : List String) (l : List String) :
    ps.foldl DirectoryConfig.add_path ⟨l⟩ = ⟨l ++ ps⟩ := by
  induction ps generalizing l with
  | nil => simp
  | cons q rest ih =>
    show rest.foldl DirectoryConfig.add_path ⟨l ++ [q]⟩ = _
    rw [ih]
    simp

/-- C1, evaluated at a failing input: with an overlay location configured
that redefines built-in codepoint 1 as "overriddenIsA", the store
materialized by the first KNOWN_VALUES.get() still resolves codepoint 1
to the built-in "isA" identifier, because LazyKnownValues::get builds the
store from the built-in table alone and never performs the overlay load
(it calls neither get_and_lock_config nor load_from_config, although the
crate documentation of both promises otherwise). The third conjunct
computes what the documented seeding-then-overlay composition would
produce at the same input: the overlay identifier. -/
theorem known_values_get_ignores_overlay :
    (LazyKnownValues.get (set_directory_config ⟨["/ov"]⟩
      initialGlobalState).2).1
      = some (KnownValuesStore.new builtin_known_values) ∧
    KnownValuesStore.known_value_for_raw_value 1
      (LazyKnownValues.get (set_directory_config ⟨["/ov"]⟩
        initialGlobalState).2).1 = ⟨1, some "isA"⟩ ∧
    KnownValuesStore.known_value_for_raw_value 1
      (some ((KnownValuesStore.new builtin_known_values).load_from_config
        fsOverride ⟨["/ov"]⟩).1) = ⟨1, some "overriddenIsA"⟩ := by
  refine ⟨rfl, by decide, by decide⟩

/-- C2, evaluated at the failing input: starting from the initial state,
the shared registry is accessed (KNOWN_VALUES.get() returns, the Once has
fired), yet a subsequent set_directory_config call returns Ok and
replaces the pending configuration instead of failing with
AlreadyInitialized, and a subsequent add_search_paths call also returns
Ok — because LazyKnownValues::get never sets CONFIG_LOCKED (nothing in
the crate calls get_and_lock_config). Calls made before the first access
succeed, as the claim also says. -/
theorem config_mutation_after_get_succeeds :
    (LazyKnownValues.get initialGlobalState).2.once_fired = true ∧
    (set_directory_config ⟨["/custom"]⟩
      (LazyKnownValues.get initialGlobalState).2).1 = .ok () ∧
    (set_directory_config ⟨["/custom"]⟩
      (LazyKnownValues.get initialGlobalState).2).2.custom_config
      = some ⟨["/custom"]⟩ ∧
    (add_search_paths (some "/home/user") ["/extra"]
      (LazyKnownValues.get initialGlobalState).2).1 = .ok () ∧
    (set_directory_config ⟨["/custom"]⟩ initialGlobalState).1 = .ok () := by
  refine ⟨rfl, rfl, rfl, rfl, rfl⟩

/-- C10: calling add_search_paths while the configuration is unlocked and
no configuration is pending returns Ok, and the pending configuration
becomes exactly the default directory (home-based .known-values, or the
"." based fallback when no home directory resolves) followed by the given
paths in order. -/
theorem add_search_paths_default_then_paths (home_dir : Option String)
    (paths : List String) (s : GlobalState)
    (hlock : s.config_locked = false) (hcfg : s.custom_config = none) :
    (add_search_paths home_dir paths s).1 = .ok () ∧
    (add_search_paths home_dir paths s).2.custom_config
      = some ⟨DirectoryConfig.default_directory home_dir :: paths⟩ := by
  constructor
  · simp [add_search_paths, hlock]
  · simp only [add_search_paths, hlock, Bool.false_eq_true, if_false, hcfg,
      DirectoryConfig.default_only]
    rw [foldl_add_path]
    rfl

theorem add_search_paths_default_then_paths_witness :
    (add_search_paths (some "/home/user") ["/etc/known-values"]
      initialGlobalState).1 = .ok () ∧
    (add_search_paths (some "/home/user") ["/etc/known-values"]
      initialGlobalState).2.custom_config
      = some ⟨["/home/user/.known-values", "/etc/known-values"]⟩ ∧
    (add_search_paths none ["/etc/known-values"]
      initialGlobalState).2.custom_config
      = some ⟨["./.known-values", "/etc/known-values"]⟩ := by
  have h1 := add_search_paths_default_then_paths (some "/home/user")
    ["/etc/known-values"] initialGlobalState rfl rfl
  have h2 := add_search_paths_default_then_paths none
    ["/etc/known-values"] initialGlobalState rfl rfl
  refine ⟨h1.1, ?_, ?_⟩
  · rw [h1.2]
    decide
  · rw [h2.2]
    decide
